import Mathlib

/-!
Verification of the mdfmt Markdown formatter (mdfmt.go).

The document is modelled as a `List Char`; Go's `strings.Split(s, "\n")` /
`strings.Join(lines, "\n")` become `splitLines` / `joinLines`.  Each rule's
`Apply` is translated to a pure function on `List Char`; the pipeline
`Formatter.Format` is translated to a fold over a rule list that returns
`Except` to model Go's `(string, error)` pair.
-/

namespace Mdfmt

/-- Characters matched by Go's regexp class `\s`, i.e. `[\t\n\f\r ]`. -/
def isGoWS (c : Char) : Bool :=
  c = ' ' || c = '\t' || c = '\n' || c = '\x0c' || c = '\r'

/-- Space or tab, Go's `[ \t]` and the cutset of `strings.TrimLeft(line, " \t")`. -/
def isSpaceTab (c : Char) : Bool :=
  c = ' ' || c = '\t'

/-- `unicode.IsSpace` as used by Go's `strings.TrimSpace`: the Unicode
White_Space property. -/
def isUniSpace (c : Char) : Bool :=
  c = ' ' || c = '\t' || c = '\n' || c = '\x0b' || c = '\x0c' || c = '\r' ||
  c.val = 0x85 || c.val = 0xa0 || c.val = 0x1680 ||
  (0x2000 ≤ c.val && c.val ≤ 0x200a) ||
  c.val = 0x2028 || c.val = 0x2029 || c.val = 0x202f ||
  c.val = 0x205f || c.val = 0x3000

/-- ASCII digit, Go's regexp class `\d`. -/
def isDigitA (c : Char) : Bool :=
  '0' ≤ c && c ≤ '9'

/-- Drop characters satisfying `p` from the end of a list. -/
def trimEndBy (p : Char → Bool) (s : List Char) : List Char :=
  (s.reverse.dropWhile p).reverse

/-- Go's `strings.TrimSpace`. -/
def trimSpace (s : List Char) : List Char :=
  trimEndBy isUniSpace (s.dropWhile isUniSpace)

/-- Trim with the regexp whitespace class `\s` on both ends (used to compute
the capture group of the inline-math pattern `\\\(\s*(.*?)\s*\\\)`). -/
def goTrim (s : List Char) : List Char :=
  trimEndBy isGoWS (s.dropWhile isGoWS)

/-- Go's `strings.Split(s, string(sep))` for a one-character separator.
`splitOnChar sep []` is `[[]]`, just as Go's `Split` of `""` is `[""]`. -/
def splitOnChar (sep : Char) : List Char → List (List Char)
  | [] => [[]]
  | c :: rest =>
    if c = sep then [] :: splitOnChar sep rest
    else
      match splitOnChar sep rest with
      | [] => [[c]]
      | l :: ls => (c :: l) :: ls

/-- Go's `strings.Join(ls, string(sep))` for a one-character separator. -/
def joinChar (sep : Char) : List (List Char) → List Char
  | [] => []
  | [l] => l
  | l :: ls => l ++ sep :: joinChar sep ls

/-- `strings.Split(content, "\n")`. -/
def splitLines (s : List Char) : List (List Char) :=
  splitOnChar '\n' s

/-- `strings.Join(lines, "\n")`. -/
def joinLines (ls : List (List Char)) : List Char :=
  joinChar '\n' ls

/-- `isATXHeading` from mdfmt.go: strip leading spaces/tabs, count leading
`#` up to six, and require a space or tab right after the hashes. -/
def isATXHeading (line : List Char) : Bool :=
  let t := line.dropWhile isSpaceTab
  let count := min (t.takeWhile (fun c => c = '#')).length 6
  (count != 0) &&
    match t[count]? with
    | some c => isSpaceTab c
    | none => false

/-- The insertion test of `BlankLineAfterHeadingRule.Apply`: the current line
is a heading and the next line (`ls.head?`) is missing or non-blank. -/
def headingNeedsBlank (l : List Char) (ls : List (List Char)) : Bool :=
  isATXHeading l &&
    match ls with
    | [] => true
    | nxt :: _ => !(trimSpace nxt).isEmpty

/-- The line scan of `BlankLineAfterHeadingRule.Apply`: copy each line and,
after a heading whose next line is missing or non-blank, emit one blank. -/
def blankAfterHeading : List (List Char) → List (List Char)
  | [] => []
  | l :: ls =>
    (if headingNeedsBlank l ls then [l, []] else [l]) ++ blankAfterHeading ls

/-- `BlankLineAfterHeadingRule.Apply`. -/
def applyBlankLineAfterHeading (content : List Char) : List Char :=
  joinLines (blankAfterHeading (splitLines content))

/-- `part = part[1:]` when the segment starts with a colon. -/
def stripLeadColon (p : List Char) : List Char :=
  match p with
  | ':' :: r => r
  | _ => p

/-- The per-segment check inside `isTableSeparator`: empty segments pass
(the loop `continue`s), otherwise strip an optional leading and trailing
colon and require a non-empty run of dashes. -/
def segOK (part : List Char) : Bool :=
  let p := trimSpace part
  if p = [] then true
  else
    let p1 := stripLeadColon p
    let p2 := if p1.getLast? = some ':' then p1.dropLast else p1
    (p2 != []) && p2.all (fun c => c = '-')

/-- `isTableSeparator` from mdfmt.go. -/
def isTableSeparator (line : List Char) : Bool :=
  let t := trimSpace line
  t.contains '|' && (splitOnChar '|' t).all segOK

/-- The insertion branches of `BlankLineBeforeTableRule.Apply` when a
separator is seen.  `st` is the `outLines` slice in reverse (most recently
emitted line first): an empty `outLines` gets one blank, a one-line
`outLines` gets a blank before its header, and otherwise a blank is inserted
before the header iff the line two back is non-blank. -/
def tableInsert (st : List (List Char)) : List (List Char) :=
  match st with
  | [] => [[]]
  | [h] => [h, []]
  | h :: m :: t => if trimSpace m = [] then h :: m :: t else h :: [] :: m :: t

/-- One step of `BlankLineBeforeTableRule.Apply`'s loop: run the insertion
branches when the line is a separator, then emit the line. -/
def tableStep (st : List (List Char)) (line : List Char) : List (List Char) :=
  line :: (if isTableSeparator line then tableInsert st else st)

/-- The loop of `BlankLineBeforeTableRule.Apply` over all lines. -/
def tableRun (st : List (List Char)) : List (List Char) → List (List Char)
  | [] => st
  | l :: rest => tableRun (tableStep st l) rest

/-- `BlankLineBeforeTableRule.Apply`. -/
def applyBlankLineBeforeTable (content : List Char) : List Char :=
  joinLines (tableRun [] (splitLines content)).reverse

/-!
The inline-math rule compiles the Go regexp `\\\(\s*(.*?)\s*\\\)` and calls
`ReplaceAllString(content, "$$$1$")`.  With Go's leftmost-first semantics the
match starting at an occurrence of `\(` ends at the first following `\)`
whose in-between text, after stripping `\s` from both ends, contains no
newline (the greedy `\s*` paddings absorb any whitespace — including line
feeds — at the two ends, while `(.*?)` cannot cross a newline); the capture
group is that stripped text.  If the first following `\)` fails this
condition, every later `\)` fails it as well (the stripped core only grows),
so the `\(` participates in no match at all.
-/

/-- Scan for the closing `\)` of a match that started just before `acc.reverse
++ remaining input`.  Returns the matched inner text and the input after the
close, or `none` when no feasible close exists (by the monotonicity noted
above, an infeasible first close means no close is feasible). -/
def findMathClose : List Char → List Char → Option (List Char × List Char)
  | _, [] => none
  | _, [_] => none
  | acc, c :: d :: rest =>
    if c = '\\' ∧ d = ')' then
      if (goTrim acc.reverse).contains '\n' then none
      else some (acc.reverse, rest)
    else findMathClose (c :: acc) (d :: rest)

/-- Fueled scan of `InlineMathRule.Apply`: at each occurrence of `\(` with a
feasible close, emit `$`, the `\s`-trimmed inner text, and `$` (the template
`"$$$1$"`), then continue after the close.  The fuel only needs to be at
least the input length. -/
def inlineMathGo : Nat → List Char → List Char
  | 0, s => s
  | _ + 1, [] => []
  | _ + 1, [c] => [c]
  | n + 1, c :: d :: rest =>
    if c = '\\' ∧ d = '(' then
      match findMathClose [] rest with
      | some (inner, after) => '$' :: (goTrim inner ++ '$' :: inlineMathGo n after)
      | none => '\\' :: '(' :: inlineMathGo n rest
    else c :: inlineMathGo n (d :: rest)

/-- `InlineMathRule.Apply`. -/
def applyInlineMath (content : List Char) : List Char :=
  inlineMathGo content.length content

/-- The per-line rewrite of `SingleSpaceAfterEnumerationRule`: the regexp
`^(\s*)(\d+\.)(?:[ \t]{2,})(.*)$` replaced by `"$1$2 $3"`.  A match needs the
maximal leading `\s` run, a non-empty digit run, a dot, and at least two
spaces/tabs; the maximal space/tab run collapses to one space. -/
def enumLine (line : List Char) : List Char :=
  let ws := line.takeWhile isGoWS
  let r1 := line.dropWhile isGoWS
  let digits := r1.takeWhile isDigitA
  match r1.dropWhile isDigitA with
  | '.' :: r3 =>
    if digits ≠ [] ∧ 2 ≤ (r3.takeWhile isSpaceTab).length then
      ws ++ digits ++ '.' :: ' ' :: r3.dropWhile isSpaceTab
    else line
  | _ => line

/-- `SingleSpaceAfterEnumerationRule.Apply`. -/
def applySingleSpaceAfterEnumeration (content : List Char) : List Char :=
  joinLines ((splitLines content).map enumLine)

/-- The per-line rewrite of `SingleSpaceAfterListItemRule`: the regexp
`^(\s*)[*-](?:[ \t]+)(.*)$` replaced by `"$1- $2"`. -/
def listLine (line : List Char) : List Char :=
  let ws := line.takeWhile isGoWS
  match line.dropWhile isGoWS with
  | m :: r2 =>
    if (m = '-' ∨ m = '*') ∧ r2.takeWhile isSpaceTab ≠ [] then
      ws ++ '-' :: ' ' :: r2.dropWhile isSpaceTab
    else line
  | [] => line

/-- `SingleSpaceAfterListItemRule.Apply`. -/
def applySingleSpaceAfterListItem (content : List Char) : List Char :=
  joinLines ((splitLines content).map listLine)

/-- `strings.ReplaceAll(s, string(c), string(d))` for one-character needles
(both entries of the default replacement map are single characters): the
leftmost scan replaces each occurrence of `c` by `d`. -/
def replaceAllChar (c d : Char) : List Char → List Char
  | [] => []
  | x :: r => (if x = c then d else x) :: replaceAllChar c d r

/-- `ReplacementRule.Apply`: one whole-document pass per map entry.  Go's map
iteration order is unspecified, so the entry list is a parameter. -/
def applyReplacements (pairs : List (Char × Char)) (s : List Char) : List Char :=
  pairs.foldl (fun acc p => replaceAllChar p.1 p.2 acc) s

/-- The default `SmartQuotesToAscii` map, in one of its two iteration orders. -/
def defaultQuotePairs : List (Char × Char) :=
  [('„', '"'), ('“', '"')]

/-- A `Rule`: a name and an `Apply` that may fail. -/
structure FmtRule where
  name : List Char
  apply : List Char → Except (List Char) (List Char)

/-- The error `Format` returns: `fmt.Errorf("rule %q failed: %w", name, err)`
keeps the failing rule's name and wraps the cause. -/
structure FormatError where
  ruleName : List Char
  cause : List Char
deriving DecidableEq

/-- `Formatter.Format`: apply the rules in order to the running content and
abort on the first error. -/
def Format : List FmtRule → List Char → Except FormatError (List Char)
  | [], content => .ok content
  | r :: rs, content =>
    match r.apply content with
    | .error e => .error ⟨r.name, e⟩
    | .ok c => Format rs c

/-- Wrap a total transformation as a rule that never fails. -/
def pureRule (n : List Char) (f : List Char → List Char) : FmtRule :=
  ⟨n, fun s => .ok (f s)⟩

/-- The six default rules constructed in `main`, in their fixed order. -/
def defaultRules (pairs : List (Char × Char)) : List FmtRule :=
  [pureRule ("BlankLineAfterHeading".data) applyBlankLineAfterHeading,
   pureRule ("BlankLineBeforeTable".data) applyBlankLineBeforeTable,
   pureRule ("InlineMathToDollar".data) applyInlineMath,
   pureRule ("SingleSpaceAfterEnumeration".data) applySingleSpaceAfterEnumeration,
   pureRule ("SingleSpaceAfterListItem".data) applySingleSpaceAfterListItem,
   pureRule ("SmartQuotesToAscii".data) (applyReplacements pairs)]

/-- The default pipeline as a pure function (all six rules are total). -/
def defaultPipeline (pairs : List (Char × Char)) (s : List Char) : List Char :=
  applyReplacements pairs
    (applySingleSpaceAfterListItem
      (applySingleSpaceAfterEnumeration
        (applyInlineMath
          (applyBlankLineBeforeTable
            (applyBlankLineAfterHeading s)))))

/-- `strings.HasSuffix(out, "\n")`. -/
def hasTrailingLF (s : List Char) : Bool :=
  s.getLast? = some '\n'

/-- The output-side shim of `main`: append one line feed when the pipeline's
result does not already end with one. -/
def mainOutput (pairs : List (Char × Char)) (s : List Char) : List Char :=
  let out := defaultPipeline pairs s
  if hasTrailingLF out then out else out ++ ['\n']

/-!  Specification-side predicates used to state the claims. -/

/-- The heading rule's postcondition on a line sequence: every ATX heading is
directly followed by a blank line (in particular no heading is last). -/
def headingsOK : List (List Char) → Bool
  | [] => true
  | [l] => !isATXHeading l
  | l :: nxt :: rest =>
    (!isATXHeading l || (trimSpace nxt).isEmpty) && headingsOK (nxt :: rest)

/-- A direct transcription of "an optional leading colon, one or more dash
characters, and an optional trailing colon". -/
def colonDashColon (p : List Char) : Bool :=
  let q := stripLeadColon p
  let d := q.takeWhile (fun c => c = '-')
  let r := q.dropWhile (fun c => c = '-')
  (d != []) && (r.isEmpty || r == [':'])

/-- Per-segment check of claim C3 as stated: an empty trimmed segment is
permitted only in leading position of a line starting with `|` or trailing
position of a line ending with `|`. -/
def claimSegAt (t : List Char) (n i : Nat) (part : List Char) : Bool :=
  if trimSpace part = [] then
    (decide (i = 0) && (t.head? == some '|')) ||
    (decide (i = n - 1) && (t.getLast? == some '|'))
  else colonDashColon (trimSpace part)

/-- The table-separator classifier exactly as claim C3 words it (empty
segments disqualify unless leading/trailing). -/
def claimTableSeparator (line : List Char) : Bool :=
  let t := trimSpace line
  let segs := splitOnChar '|' t
  t.contains '|' &&
    (List.range segs.length).all (fun i => claimSegAt t segs.length i (segs.getD i []))

/-- Amended per-segment check: an empty trimmed segment is permitted in any
position; otherwise the segment must be colon-dashes-colon. -/
def amendedSegOK (part : List Char) : Bool :=
  (trimSpace part).isEmpty || colonDashColon (trimSpace part)

/-- The amended table-separator description: after trimming, at least one
pipe, and every pipe-delimited trimmed segment empty or colon-dashes-colon. -/
def amendedTableSeparator (line : List Char) : Bool :=
  let t := trimSpace line
  t.contains '|' && (splitOnChar '|' t).all amendedSegOK

/-- The table rule's precondition for being a no-op, line-indexed: every
separator line has at least two predecessors and the line two positions back
is blank.  `p2`/`p1` are the lines two/one positions back. -/
def tableOKAux : Option (List Char) → Option (List Char) → List (List Char) → Bool
  | _, _, [] => true
  | p2, p1, l :: rest =>
    (!isTableSeparator l ||
      (match p2 with
       | some m => (trimSpace m).isEmpty
       | none => false)) && tableOKAux p1 (some l) rest

/-- `tableOKAux` started before the first line. -/
def tableOK (ls : List (List Char)) : Bool :=
  tableOKAux none none ls

/-- Instrumented `tableInsert`: inserted blanks are tagged `none`. -/
def tableInsertTag (st : List (Option Nat × List Char)) : List (Option Nat × List Char) :=
  match st with
  | [] => [(none, [])]
  | [h] => [h, (none, [])]
  | h :: m :: t => if trimSpace m.2 = [] then h :: m :: t else h :: (none, []) :: m :: t

/-- Instrumented `tableStep`: output lines are tagged with their input index,
inserted blanks with `none`. -/
def tableStepTag (st : List (Option Nat × List Char)) (i : Nat) (line : List Char) :
    List (Option Nat × List Char) :=
  (some i, line) :: (if isTableSeparator line then tableInsertTag st else st)

/-- Instrumented `tableRun`. -/
def tableRunTag (i : Nat) (st : List (Option Nat × List Char)) :
    List (List Char) → List (Option Nat × List Char)
  | [] => st
  | l :: rest => tableRunTag (i + 1) (tableStepTag st i l) rest

/-- A line at input index `j` is a "header row" in the sense of claim C5: its
successor in the input is a detected separator, or it is itself a separator
opening the document. -/
def headerCond (ls : List (List Char)) (j : Nat) (l : List Char) : Bool :=
  (match ls[j + 1]? with
   | some nxt => isTableSeparator nxt
   | none => false) ||
  (decide (j = 0) && isTableSeparator l)

/-- Over the reversed tagged output: every inserted (`none`-tagged) line is an
empty line whose immediate successor in the output is an input line standing
immediately above a detected separator (or a separator opening the
document). -/
def blanksOK (ls : List (List Char)) : List (Option Nat × List Char) → Bool
  | [] => true
  | (none, _) :: _ => false
  | (some j, l) :: (none, b) :: rest =>
    b.isEmpty && headerCond ls j l && blanksOK ls rest
  | (some _, _) :: rest => blanksOK ls rest

/-- `InsertBlanks xs ys`: `ys` is `xs` with zero or more empty lines
inserted (so every line of `xs` appears verbatim, in order, in `ys`). -/
inductive InsertBlanks : List (List Char) → List (List Char) → Prop
  | nil : InsertBlanks [] []
  | keep {x : List Char} {xs ys : List (List Char)} :
      InsertBlanks xs ys → InsertBlanks (x :: xs) (x :: ys)
  | blank {xs ys : List (List Char)} :
      InsertBlanks xs ys → InsertBlanks xs ([] :: ys)

/-- `s` has two adjacent characters `a`, `b` somewhere. -/
def hasPair (a b : Char) : List Char → Bool
  | [] => false
  | c :: rest =>
    (match rest with
     | d :: _ => c = a && d = b
     | [] => false) || hasPair a b rest

/-- `s` contains the two-character opening marker. -/
def hasOpenMark (s : List Char) : Bool :=
  hasPair '\\' '(' s

/-- `s` contains the two-character closing marker. -/
def hasCloseMark (s : List Char) : Bool :=
  hasPair '\\' ')' s

/-!  Infrastructure lemmas: splitting and joining lines. -/

theorem splitOnChar_ne_nil (sep : Char) (s : List Char) : splitOnChar sep s ≠ [] := by
  induction s with
  | nil => simp [splitOnChar]
  | cons c rest ih =>
    simp only [splitOnChar]
    split
    · simp
    · split <;> simp

theorem mem_splitOnChar_not_sep (sep : Char) (s : List Char) :
    ∀ l ∈ splitOnChar sep s, sep ∉ l := by
  induction s with
  | nil => intro l hl; simp [splitOnChar] at hl; simp [hl]
  | cons c rest ih =>
    intro l hl
    simp only [splitOnChar] at hl
    by_cases hc : c = sep
    · rw [if_pos hc] at hl
      rcases List.mem_cons.mp hl with hl | hl
      · simp [hl]
      · exact ih l hl
    · rw [if_neg hc] at hl
      rcases h : splitOnChar sep rest with _ | ⟨x, xs⟩
      · exact absurd h (splitOnChar_ne_nil sep rest)
      · rw [h] at hl
        rcases List.mem_cons.mp hl with hl | hl
        · subst hl
          intro hmem
          rcases List.mem_cons.mp hmem with h1 | h1
          · exact hc h1.symm
          · exact ih x (by simp [h]) h1
        · exact ih l (by simp [h, hl])

theorem joinChar_splitOnChar (sep : Char) (s : List Char) :
    joinChar sep (splitOnChar sep s) = s := by
  induction s with
  | nil => simp [splitOnChar, joinChar]
  | cons c rest ih =>
    simp only [splitOnChar]
    by_cases hc : c = sep
    · rw [if_pos hc]
      rcases h : splitOnChar sep rest with _ | ⟨x, xs⟩
      · exact absurd h (splitOnChar_ne_nil sep rest)
      · rw [h] at ih
        simp only [joinChar, List.nil_append]
        rw [ih, hc]
    · rw [if_neg hc]
      rcases h : splitOnChar sep rest with _ | ⟨x, xs⟩
      · exact absurd h (splitOnChar_ne_nil sep rest)
      · rw [h] at ih
        cases xs with
        | nil => simpa [joinChar] using congrArg (c :: ·) ih
        | cons y ys =>
          simp only [joinChar] at ih ⊢
          rw [List.cons_append, ih]

theorem splitOnChar_no_sep (sep : Char) (l : List Char) (h : sep ∉ l) :
    splitOnChar sep l = [l] := by
  induction l with
  | nil => simp [splitOnChar]
  | cons c rest ih =>
    have hc : ¬c = sep := fun hh => h (by simp [hh])
    have hr : sep ∉ rest := fun hh => h (by simp [hh])
    simp only [splitOnChar, if_neg hc, ih hr]

theorem splitOnChar_append_sep (sep : Char) (l t : List Char) (h : sep ∉ l) :
    splitOnChar sep (l ++ sep :: t) = l :: splitOnChar sep t := by
  induction l with
  | nil => simp [splitOnChar]
  | cons c rest ih =>
    have hc : ¬c = sep := fun hh => h (by simp [hh])
    have hr : sep ∉ rest := fun hh => h (by simp [hh])
    rw [List.cons_append]
    simp only [splitOnChar, if_neg hc, List.append_eq, ih hr]

theorem splitOnChar_joinChar (sep : Char) :
    ∀ ls : List (List Char), ls ≠ [] → (∀ l ∈ ls, sep ∉ l) →
      splitOnChar sep (joinChar sep ls) = ls := by
  intro ls
  induction ls with
  | nil => intro h; exact absurd rfl h
  | cons l ls ih =>
    intro _ hmem
    cases ls with
    | nil =>
      simp only [joinChar]
      exact splitOnChar_no_sep sep l (hmem l (by simp))
    | cons y ys =>
      simp only [joinChar]
      rw [splitOnChar_append_sep sep l _ (hmem l (by simp))]
      rw [ih (by simp) (fun x hx => hmem x (by simp [hx]))]

theorem joinLines_splitLines (s : List Char) : joinLines (splitLines s) = s :=
  joinChar_splitOnChar '\n' s

theorem splitLines_joinLines (ls : List (List Char)) (h1 : ls ≠ [])
    (h2 : ∀ l ∈ ls, '\n' ∉ l) : splitLines (joinLines ls) = ls :=
  splitOnChar_joinChar '\n' ls h1 h2

theorem splitLines_ne_nil (s : List Char) : splitLines s ≠ [] :=
  splitOnChar_ne_nil '\n' s

theorem mem_splitLines_no_lf (s : List Char) : ∀ l ∈ splitLines s, '\n' ∉ l :=
  mem_splitOnChar_not_sep '\n' s

/-!  The pipeline. -/

theorem Format_append (rules1 rules2 : List FmtRule) (content : List Char) :
    Format (rules1 ++ rules2) content =
      match Format rules1 content with
      | .ok c => Format rules2 c
      | .error e => .error e := by
  induction rules1 generalizing content with
  | nil => simp [Format]
  | cons r rs ih =>
    simp only [List.cons_append, Format]
    cases r.apply content with
    | error e => rfl
    | ok c => exact ih c

theorem Format_defaultRules (pairs : List (Char × Char)) (s : List Char) :
    Format (defaultRules pairs) s = .ok (defaultPipeline pairs s) := rfl

/-- C6: if a rule's `Apply` returns an error, `Format` aborts immediately:
it returns an error carrying that rule's name and the underlying cause,
applies no subsequent rules, and returns no partially transformed document. -/
theorem c6_format_aborts_on_error (pre post : List FmtRule) (r : FmtRule)
    (content mid e : List Char)
    (h1 : Format pre content = .ok mid) (h2 : r.apply mid = .error e) :
    Format (pre ++ r :: post) content = .error ⟨r.name, e⟩ := by
  rw [Format_append, h1]
  simp [Format, h2]

/-- A rule that succeeds, appending a character. -/
def demoOkRule : FmtRule :=
  pureRule (['i', 'd']) (fun s => s ++ ['!'])

/-- A rule that always fails. -/
def demoFailRule : FmtRule :=
  ⟨['b', 'a', 'd'], fun _ => .error (['o', 'o', 'p', 's'])⟩

/-- A rule after the failing one; it is never reached. -/
def demoTailRule : FmtRule :=
  pureRule (['t', 'l']) id

theorem c6_format_aborts_on_error_witness :
    Format [demoOkRule, demoFailRule, demoTailRule] ['h'] =
      .error ⟨['b', 'a', 'd'], ['o', 'o', 'p', 's']⟩ :=
  c6_format_aborts_on_error [demoOkRule] [demoTailRule] demoFailRule
    ['h'] ['h', '!'] ['o', 'o', 'p', 's'] rfl rfl

/-!  Determinism of the replacement rule (C8). -/

theorem replaceAllChar_comm (c1 d1 c2 d2 : Char) (h12 : c1 ≠ c2)
    (hd1 : d1 ≠ c2) (hd2 : d2 ≠ c1) :
    ∀ s, replaceAllChar c2 d2 (replaceAllChar c1 d1 s) =
      replaceAllChar c1 d1 (replaceAllChar c2 d2 s) := by
  intro s
  induction s with
  | nil => rfl
  | cons x r ih =>
    simp only [replaceAllChar]
    rw [ih]
    congr 1
    by_cases hx1 : x = c1 <;> by_cases hx2 : x = c2
    · exact absurd (hx1.symm.trans hx2) h12
    · subst hx1; simp [hd1, h12]
    · subst hx2; simp [hd2, h12.symm]
    · simp [hx1, hx2]

/-- C8: the default pipeline is deterministic — the replacement rule's result
with the default two-entry map does not depend on which of the two map
iteration orders Go happens to use, and hence neither does `Format` with the
default rules. -/
theorem c8_pipeline_deterministic (s : List Char) :
    applyReplacements defaultQuotePairs s = applyReplacements defaultQuotePairs.reverse s ∧
    Format (defaultRules defaultQuotePairs) s =
      Format (defaultRules defaultQuotePairs.reverse) s := by
  have key : ∀ t, applyReplacements defaultQuotePairs t =
      applyReplacements defaultQuotePairs.reverse t := by
    intro t
    simp only [defaultQuotePairs, applyReplacements, List.reverse_cons, List.reverse_nil,
      List.nil_append, List.singleton_append, List.foldl_cons, List.foldl_nil]
    exact replaceAllChar_comm '„' '"' '“' '"' (by decide) (by decide) (by decide) t
  refine ⟨key s, ?_⟩
  rw [Format_defaultRules, Format_defaultRules]
  simp only [defaultPipeline]
  exact congrArg Except.ok (key _)

/-!  The trailing line feed appended by `main` (C9). -/

/-- C9: the program's caller-facing output always ends with a line feed;
exactly one line feed is appended iff the pipeline's result does not already
end with one, and this is the shim's doing — `Format` itself can return text
without a trailing line feed. -/
theorem c9_trailing_line_feed (s : List Char) :
    hasTrailingLF (mainOutput defaultQuotePairs s) = true ∧
    (hasTrailingLF (defaultPipeline defaultQuotePairs s) = true →
      mainOutput defaultQuotePairs s = defaultPipeline defaultQuotePairs s) ∧
    (hasTrailingLF (defaultPipeline defaultQuotePairs s) = false →
      mainOutput defaultQuotePairs s = defaultPipeline defaultQuotePairs s ++ ['\n']) ∧
    ∃ s0, hasTrailingLF (defaultPipeline defaultQuotePairs s0) = false := by
  refine ⟨?_, fun h => by simp [mainOutput, h], fun h => by simp [mainOutput, h],
    ⟨['x'], by decide⟩⟩
  by_cases h : hasTrailingLF (defaultPipeline defaultQuotePairs s)
  · simp [mainOutput, h]
  · simp only [mainOutput, Bool.not_eq_true] at h ⊢
    rw [if_neg (by simp [h])]
    simp [hasTrailingLF, List.getLast?_concat]

theorem c9_trailing_line_feed_witness :
    mainOutput defaultQuotePairs ['x'] = ['x', '\n'] ∧
    mainOutput defaultQuotePairs ['y', '\n'] = ['y', '\n'] := by
  constructor
  · have h := (c9_trailing_line_feed ['x']).2.2.1 (by decide)
    rw [h]; decide
  · have h := (c9_trailing_line_feed ['y', '\n']).2.1 (by decide)
    rw [h]; decide

/-!  The list-marker rule (C7). -/

theorem takeWhile_all_append_cons (p : Char → Bool) (ws rest : List Char) (c : Char)
    (hws : ∀ x ∈ ws, p x = true) (hc : p c = false) :
    (ws ++ c :: rest).takeWhile p = ws := by
  rw [List.takeWhile_append_of_pos hws]
  simp [List.takeWhile_cons, hc]

theorem dropWhile_all_append_cons (p : Char → Bool) (ws rest : List Char) (c : Char)
    (hws : ∀ x ∈ ws, p x = true) (hc : p c = false) :
    (ws ++ c :: rest).dropWhile p = c :: rest := by
  rw [List.dropWhile_append_of_pos hws]
  simp [List.dropWhile_cons, hc]

/-- C7: the list-marker rule rewrites every line of the form "optional
leading whitespace, a single `-` or `*` marker, one or more spaces/tabs,
remaining content" into the same leading whitespace, a `-` marker, exactly
one space, and the remaining content verbatim; a line where the character
after the leading whitespace is not a marker (e.g. the marker is preceded by
other text) is left untouched. -/
theorem c7_list_marker_rule :
    (∀ ws sp rest : List Char, ∀ m : Char,
      (∀ x ∈ ws, isGoWS x = true) → (m = '-' ∨ m = '*') →
      sp ≠ [] → (∀ x ∈ sp, isSpaceTab x = true) →
      (∀ c, rest.head? = some c → isSpaceTab c = false) →
      listLine (ws ++ m :: (sp ++ rest)) = ws ++ '-' :: ' ' :: rest) ∧
    (∀ line : List Char, ∀ c : Char,
      (line.dropWhile isGoWS).head? = some c → c ≠ '-' → c ≠ '*' →
      listLine line = line) := by
  constructor
  · intro ws sp rest m hws hm hsp hspall hrest
    have hmws : isGoWS m = false := by
      rcases hm with h | h <;> rw [h] <;> decide
    have htk : (ws ++ m :: (sp ++ rest)).takeWhile isGoWS = ws :=
      takeWhile_all_append_cons isGoWS ws (sp ++ rest) m hws hmws
    have hdr : (ws ++ m :: (sp ++ rest)).dropWhile isGoWS = m :: (sp ++ rest) :=
      dropWhile_all_append_cons isGoWS ws (sp ++ rest) m hws hmws
    have htk2 : (sp ++ rest).takeWhile isSpaceTab = sp := by
      cases rest with
      | nil => rw [List.append_nil]; exact List.takeWhile_eq_self_iff.mpr hspall
      | cons r0 rest' =>
        exact takeWhile_all_append_cons isSpaceTab sp rest' r0 hspall (hrest r0 rfl)
    have hdr2 : (sp ++ rest).dropWhile isSpaceTab = rest := by
      cases rest with
      | nil => rw [List.append_nil]; exact List.dropWhile_eq_nil_iff.mpr (by
          intro x hx; simp [hspall x hx])
      | cons r0 rest' =>
        exact dropWhile_all_append_cons isSpaceTab sp rest' r0 hspall (hrest r0 rfl)
    simp only [listLine, htk, hdr, hdr2]
    rw [if_pos ⟨hm, by rw [htk2]; exact hsp⟩]
  · intro line c hc h1 h2
    rcases hd : line.dropWhile isGoWS with _ | ⟨d, t⟩
    · rw [hd] at hc; exact absurd hc (by simp)
    · rw [hd] at hc
      have hdc : d = c := by simpa using hc
      subst hdc
      simp only [listLine, hd]
      rw [if_neg]
      rintro ⟨h | h, -⟩
      · exact h1 h
      · exact h2 h

theorem c7_list_marker_rule_witness :
    listLine ([] ++ '*' :: ([' ', ' '] ++ ['s', 't', 'a', 'r'])) =
      [] ++ '-' :: ' ' :: ['s', 't', 'a', 'r'] ∧
    listLine ['f', 'o', 'o', '*', ' ', ' ', 'b', 'a', 'r'] =
      ['f', 'o', 'o', '*', ' ', ' ', 'b', 'a', 'r'] :=
  ⟨c7_list_marker_rule.1 [] [' ', ' '] ['s', 't', 'a', 'r'] '*'
      (by simp) (Or.inr rfl) (by simp) (by decide) (by decide),
   c7_list_marker_rule.2 ['f', 'o', 'o', '*', ' ', ' ', 'b', 'a', 'r'] 'f'
      (by decide) (by decide) (by decide)⟩

/-!  Insertion-only transformations. -/

theorem InsertBlanks.mem {xs ys : List (List Char)} (h : InsertBlanks xs ys) :
    ∀ l ∈ ys, l ∈ xs ∨ l = [] := by
  induction h with
  | nil => simp
  | @keep x xs ys _ ih =>
    intro l hl
    rcases List.mem_cons.mp hl with hl | hl
    · exact Or.inl (hl ▸ List.mem_cons_self x xs)
    · rcases ih l hl with h1 | h1
      · exact Or.inl (List.mem_cons_of_mem x h1)
      · exact Or.inr h1
  | @blank xs ys _ ih =>
    intro l hl
    rcases List.mem_cons.mp hl with hl | hl
    · exact Or.inr hl
    · exact ih l hl

theorem InsertBlanks.ne_nil {xs ys : List (List Char)} (h : InsertBlanks xs ys)
    (hx : xs ≠ []) : ys ≠ [] := by
  cases h with
  | nil => exact absurd rfl hx
  | keep _ => simp
  | blank _ => simp

theorem InsertBlanks.sublist {xs ys : List (List Char)} (h : InsertBlanks xs ys) :
    List.Sublist xs ys := by
  induction h with
  | nil => exact List.Sublist.slnil
  | keep _ ih => exact List.Sublist.cons₂ _ ih
  | blank _ ih => exact List.Sublist.cons _ ih

theorem InsertBlanks.append_one {xs ys : List (List Char)} (x : List Char)
    (h : InsertBlanks xs ys) : InsertBlanks (xs ++ [x]) (ys ++ [x]) := by
  induction h with
  | nil => exact .keep .nil
  | keep h ih => exact .keep ih
  | blank h ih => exact .blank ih

theorem InsertBlanks.insert_mid {xs : List (List Char)} :
    ∀ a b : List (List Char), InsertBlanks xs (a ++ b) → InsertBlanks xs (a ++ [] :: b) := by
  intro a
  induction a generalizing xs with
  | nil => intro b h; exact .blank h
  | cons y a' ih =>
    intro b h
    rw [List.cons_append] at h ⊢
    cases h with
    | keep h => exact .keep (ih _ h)
    | blank h => exact .blank (ih _ h)

/-!  The heading rule (C4, and its half of C10). -/

theorem blankAfterHeading_cons_pos {l : List Char} {ls : List (List Char)}
    (h : headingNeedsBlank l ls = true) :
    blankAfterHeading (l :: ls) = l :: [] :: blankAfterHeading ls := by
  simp [blankAfterHeading, h]

theorem blankAfterHeading_cons_neg {l : List Char} {ls : List (List Char)}
    (h : headingNeedsBlank l ls = false) :
    blankAfterHeading (l :: ls) = l :: blankAfterHeading ls := by
  simp [blankAfterHeading, h]

theorem blankAfterHeading_head (l : List Char) (ls : List (List Char)) :
    ∃ ys, blankAfterHeading (l :: ls) = l :: ys := by
  by_cases h : headingNeedsBlank l ls = true
  · exact ⟨[] :: blankAfterHeading ls, blankAfterHeading_cons_pos h⟩
  · exact ⟨blankAfterHeading ls,
      blankAfterHeading_cons_neg (Bool.not_eq_true _ ▸ h)⟩

theorem blankAfterHeading_ne_nil (l : List Char) (ls : List (List Char)) :
    blankAfterHeading (l :: ls) ≠ [] := by
  obtain ⟨ys, hys⟩ := blankAfterHeading_head l ls
  simp [hys]

theorem insertBlanks_blankAfterHeading (ls : List (List Char)) :
    InsertBlanks ls (blankAfterHeading ls) := by
  induction ls with
  | nil => exact .nil
  | cons l ls ih =>
    by_cases h : headingNeedsBlank l ls = true
    · rw [blankAfterHeading_cons_pos h]
      exact .keep (.blank ih)
    · rw [blankAfterHeading_cons_neg (Bool.not_eq_true _ ▸ h)]
      exact .keep ih

theorem headingsOK_blankAfterHeading (ls : List (List Char)) :
    headingsOK (blankAfterHeading ls) = true := by
  induction ls with
  | nil => rfl
  | cons l ls ih =>
    by_cases hIns : headingNeedsBlank l ls = true
    · rw [blankAfterHeading_cons_pos hIns]
      rcases e : blankAfterHeading ls with _ | ⟨x, xs⟩
      · simp [headingsOK, trimSpace, trimEndBy, show isATXHeading [] = false from rfl]
      · rw [e] at ih
        simp only [headingsOK, Bool.and_eq_true]
        exact ⟨by simp [trimSpace, trimEndBy],
          by simp [show isATXHeading [] = false from rfl], ih⟩
    · have hIns' : headingNeedsBlank l ls = false := Bool.not_eq_true _ ▸ hIns
      rw [blankAfterHeading_cons_neg hIns']
      rcases e : blankAfterHeading ls with _ | ⟨x, xs⟩
      · cases ls with
        | nil =>
          have hA : isATXHeading l = false := by
            simpa [headingNeedsBlank] using hIns'
          simp [headingsOK, hA]
        | cons nxt rest => exact absurd e (blankAfterHeading_ne_nil nxt rest)
      · rw [e] at ih
        cases ls with
        | nil => exact absurd e (by simp [blankAfterHeading])
        | cons nxt rest =>
          obtain ⟨ys, hys⟩ := blankAfterHeading_head nxt rest
          rw [hys] at e
          injection e with e1 e2
          subst e1
          simp only [headingsOK, Bool.and_eq_true]
          refine ⟨?_, ih⟩
          cases hA : isATXHeading l <;> cases hB : (trimSpace nxt).isEmpty <;>
            simp_all [headingNeedsBlank]

theorem blankAfterHeading_of_headingsOK (ls : List (List Char))
    (h : headingsOK ls = true) : blankAfterHeading ls = ls := by
  induction ls with
  | nil => rfl
  | cons l ls ih =>
    cases ls with
    | nil =>
      have hA : isATXHeading l = false := by simpa [headingsOK] using h
      rw [blankAfterHeading_cons_neg (by simp [headingNeedsBlank, hA])]
      simp [blankAfterHeading]
    | cons nxt rest =>
      simp only [headingsOK, Bool.and_eq_true] at h
      obtain ⟨h1, h2⟩ := h
      have hNB : headingNeedsBlank l (nxt :: rest) = false := by
        cases hA : isATXHeading l <;> cases hB : (trimSpace nxt).isEmpty <;>
          simp_all [headingNeedsBlank]
      rw [blankAfterHeading_cons_neg hNB, ih h2]

theorem splitLines_applyBlankLineAfterHeading (content : List Char) :
    splitLines (applyBlankLineAfterHeading content) =
      blankAfterHeading (splitLines content) := by
  unfold applyBlankLineAfterHeading
  apply splitLines_joinLines
  · exact (insertBlanks_blankAfterHeading _).ne_nil (splitLines_ne_nil content)
  · intro l hl
    rcases (insertBlanks_blankAfterHeading (splitLines content)).mem l hl with h | h
    · exact mem_splitLines_no_lf content l h
    · simp [h]

/-- C4 counterexample: the claim says nothing is inserted when the document
ends immediately after a heading, but the code appends a blank line there
(its own test `heading at end of file` expects exactly this). -/
theorem c4_heading_eof_counterexample :
    applyBlankLineAfterHeading ("# H".data) = ("# H\n".data) ∧
    applyBlankLineAfterHeading ("# H".data) ≠ ("# H".data) := by
  constructor <;> decide

/-- C4 (amended): after one pass of the heading rule every ATX heading line
is followed by a blank line — one is inserted after a heading whose next line
is non-blank and appended after a heading that ends the document — and when
every heading already has a following blank line the rule changes nothing
(so it never inserts a second blank line and never removes existing ones). -/
theorem c4_heading_blank_line_amended (content : List Char) :
    headingsOK (splitLines (applyBlankLineAfterHeading content)) = true ∧
    (headingsOK (splitLines content) = true →
      applyBlankLineAfterHeading content = content) := by
  constructor
  · rw [splitLines_applyBlankLineAfterHeading]
    exact headingsOK_blankAfterHeading _
  · intro h
    unfold applyBlankLineAfterHeading
    rw [blankAfterHeading_of_headingsOK _ h, joinLines_splitLines]

theorem c4_heading_blank_line_amended_witness :
    headingsOK (splitLines (applyBlankLineAfterHeading ("# H\nText".data))) = true ∧
    applyBlankLineAfterHeading ("# H\n\nText".data) = ("# H\n\nText".data) :=
  ⟨(c4_heading_blank_line_amended ("# H\nText".data)).1,
   (c4_heading_blank_line_amended ("# H\n\nText".data)).2 (by decide)⟩

/-!  The table rule only inserts blank lines (C10, with the heading rule). -/

theorem insertBlanks_tableInsert {xs : List (List Char)} (st : List (List Char))
    (h : InsertBlanks xs st.reverse) : InsertBlanks xs (tableInsert st).reverse := by
  cases st with
  | nil => simpa [tableInsert] using InsertBlanks.insert_mid [] [] (by simpa using h)
  | cons h1 t1 =>
    cases t1 with
    | nil => simpa [tableInsert] using InsertBlanks.insert_mid [] [h1] (by simpa using h)
    | cons m t =>
      by_cases hm : trimSpace m = []
      · simpa [tableInsert, hm] using h
      · have h' : InsertBlanks xs ((t.reverse ++ [m]) ++ [h1]) := by
          simpa [List.append_assoc] using h
        have := InsertBlanks.insert_mid (t.reverse ++ [m]) [h1] h'
        simp only [tableInsert, if_neg hm]
        simpa [List.append_assoc] using this

theorem insertBlanks_tableStep {xs : List (List Char)} (st : List (List Char))
    (l : List Char) (h : InsertBlanks xs st.reverse) :
    InsertBlanks (xs ++ [l]) (tableStep st l).reverse := by
  have key : InsertBlanks xs (if isTableSeparator l then tableInsert st else st).reverse := by
    by_cases hsep : isTableSeparator l = true
    · rw [if_pos hsep]; exact insertBlanks_tableInsert st h
    · rw [if_neg hsep]; exact h
  have e : (tableStep st l).reverse =
      (if isTableSeparator l then tableInsert st else st).reverse ++ [l] := by
    simp [tableStep]
  rw [e]
  exact key.append_one l

theorem insertBlanks_tableRun (rest : List (List Char)) :
    ∀ xs st : List (List Char), InsertBlanks xs st.reverse →
      InsertBlanks (xs ++ rest) (tableRun st rest).reverse := by
  induction rest with
  | nil => intro xs st h; simpa using h
  | cons l rest ih =>
    intro xs st h
    have h3 := ih (xs ++ [l]) (tableStep st l) (insertBlanks_tableStep st l h)
    show InsertBlanks (xs ++ l :: rest) (tableRun (tableStep st l) rest).reverse
    simpa [List.append_assoc] using h3

theorem insertBlanks_tableLines (ls : List (List Char)) :
    InsertBlanks ls (tableRun [] ls).reverse := by
  simpa using insertBlanks_tableRun ls [] [] .nil

theorem splitLines_applyBlankLineBeforeTable (content : List Char) :
    splitLines (applyBlankLineBeforeTable content) =
      (tableRun [] (splitLines content)).reverse := by
  unfold applyBlankLineBeforeTable
  apply splitLines_joinLines
  · exact (insertBlanks_tableLines _).ne_nil (splitLines_ne_nil content)
  · intro l hl
    rcases (insertBlanks_tableLines (splitLines content)).mem l hl with h | h
    · exact mem_splitLines_no_lf content l h
    · simp [h]

/-- C10: the two blank-line rules never modify, delete or reorder existing
lines — each output line sequence is the input line sequence with zero or
more empty lines inserted, so the input lines form a sublist of the output
(every input line appears verbatim, in its original relative order). -/
theorem c10_blank_line_rules_insert_only (content : List Char) :
    InsertBlanks (splitLines content) (splitLines (applyBlankLineAfterHeading content)) ∧
    InsertBlanks (splitLines content) (splitLines (applyBlankLineBeforeTable content)) ∧
    List.Sublist (splitLines content) (splitLines (applyBlankLineAfterHeading content)) ∧
    List.Sublist (splitLines content) (splitLines (applyBlankLineBeforeTable content)) := by
  have h1 : InsertBlanks (splitLines content)
      (splitLines (applyBlankLineAfterHeading content)) := by
    rw [splitLines_applyBlankLineAfterHeading]
    exact insertBlanks_blankAfterHeading _
  have h2 : InsertBlanks (splitLines content)
      (splitLines (applyBlankLineBeforeTable content)) := by
    rw [splitLines_applyBlankLineBeforeTable]
    exact insertBlanks_tableLines _
  exact ⟨h1, h2, h1.sublist, h2.sublist⟩

/-!  The table-separator classifier (C3). -/

theorem colon_dash_key (q : List Char) :
    (((if q.getLast? = some ':' then q.dropLast else q) != []) &&
      (if q.getLast? = some ':' then q.dropLast else q).all (fun c => c = '-')) =
    ((q.takeWhile (fun c => c = '-') != []) &&
      ((q.dropWhile (fun c => c = '-')).isEmpty ||
        q.dropWhile (fun c => c = '-') == [':'])) := by
  rcases List.eq_nil_or_concat q with hq | ⟨l', a, hq⟩
  · subst hq; rfl
  · rw [List.concat_eq_append] at hq
    subst hq
    by_cases ha : a = ':'
    · subst ha
      rw [List.getLast?_concat, if_pos rfl, List.dropLast_concat]
      by_cases hall : l'.all (fun c => c = '-') = true
      · have hmem : ∀ x ∈ l', (fun c => decide (c = '-')) x = true := by
          simpa using hall
        have ht : (l' ++ ':' :: []).takeWhile (fun c => c = '-') = l' :=
          takeWhile_all_append_cons _ l' [] ':' hmem (by decide)
        have hd : (l' ++ ':' :: []).dropWhile (fun c => c = '-') = ':' :: [] :=
          dropWhile_all_append_cons _ l' [] ':' hmem (by decide)
        rw [ht, hd, hall]
        simp
      · have hall' : l'.all (fun c => c = '-') = false := by
          simpa using hall
        rw [hall']
        have hne : l'.dropWhile (fun c => c = '-') ≠ [] := by
          intro he
          exact hall (by
            have := List.dropWhile_eq_nil_iff.mp he
            simpa using this)
        have hr : (l' ++ ':' :: []).dropWhile (fun c => c = '-') =
            l'.dropWhile (fun c => c = '-') ++ ':' :: [] := by
          rw [List.dropWhile_append]
          rw [if_neg (by simpa using hne)]
        rw [hr]
        rcases he : l'.dropWhile (fun c => c = '-') with _ | ⟨e, es⟩
        · exact absurd he hne
        · simp
    · rw [List.getLast?_concat, if_neg (by simpa using ha)]
      by_cases hall : (l' ++ [a]).all (fun c => c = '-') = true
      · have hmem : ∀ x ∈ l' ++ [a], (fun c => decide (c = '-')) x = true :=
          List.all_eq_true.mp hall
        have ht : (l' ++ [a]).takeWhile (fun c => c = '-') = l' ++ [a] :=
          List.takeWhile_eq_self_iff.mpr hmem
        have hd : (l' ++ [a]).dropWhile (fun c => c = '-') = [] :=
          List.dropWhile_eq_nil_iff.mpr hmem
        rw [ht, hd, hall]
        simp
      · have hall' : (l' ++ [a]).all (fun c => c = '-') = false := by
          simpa using hall
        rw [hall']
        have hne : (l' ++ [a]).dropWhile (fun c => c = '-') ≠ [] := by
          intro he
          exact hall (List.all_eq_true.mpr (List.dropWhile_eq_nil_iff.mp he))
        have hkey : ((l' ++ [a]).dropWhile (fun c => c = '-') == [':']) = false := by
          rw [Bool.eq_false_iff]
          intro hbeq
          have heq : (l' ++ [a]).dropWhile (fun c => c = '-') = [':'] := by
            simpa using hbeq
          have hsplit := List.takeWhile_append_dropWhile
            (fun c => decide (c = '-')) (l' ++ [a])
          rw [heq] at hsplit
          have hlast : (l' ++ [a]).getLast? = some ':' := by
            rw [← hsplit]
            exact List.getLast?_concat _
          rw [List.getLast?_concat] at hlast
          exact ha (by simpa using hlast)
        rw [hkey]
        rcases he : (l' ++ [a]).dropWhile (fun c => c = '-') with _ | ⟨e, es⟩
        · exact absurd he hne
        · simp

theorem segOK_eq_amended (part : List Char) : segOK part = amendedSegOK part := by
  by_cases hp : trimSpace part = []
  · simp [segOK, amendedSegOK, hp]
  · simp only [segOK, amendedSegOK, colonDashColon, if_neg hp]
    rw [show (trimSpace part).isEmpty = false from by simpa using hp]
    rw [Bool.false_or]
    exact colon_dash_key (stripLeadColon (trimSpace part))

theorem all_segOK_eq_amended (parts : List (List Char)) :
    parts.all segOK = parts.all amendedSegOK := by
  induction parts with
  | nil => rfl
  | cons x xs ih => simp only [List.all_cons, segOK_eq_amended, ih]

/-- C3 counterexample: the code accepts `-||-` as a table separator (its
loop skips every empty segment, interior ones included), while the claim as
stated rejects it because of the empty interior segment between the two
pipes. -/
theorem c3_separator_counterexample :
    isTableSeparator ("-||-".data) = true ∧
    claimTableSeparator ("-||-".data) = false := by
  constructor <;> decide

/-- C3 (amended): the classifier accepts a line exactly when, after trimming
whitespace, it contains at least one pipe and every pipe-delimited,
whitespace-trimmed segment is either empty — empty segments being permitted
in any position — or consists of an optional leading colon, one or more
dashes, and an optional trailing colon. -/
theorem c3_table_separator_amended (line : List Char) :
    isTableSeparator line = amendedTableSeparator line := by
  show ((trimSpace line).contains '|' && (splitOnChar '|' (trimSpace line)).all segOK) =
    ((trimSpace line).contains '|' &&
      (splitOnChar '|' (trimSpace line)).all amendedSegOK)
  rw [all_segOK_eq_amended]

/-!  The inline-math rule (C2, C1). -/

theorem hasPair_cons_false {a b c : Char} {s : List Char}
    (h : hasPair a b (c :: s) = false) : hasPair a b s = false := by
  simp only [hasPair, Bool.or_eq_false_iff] at h
  exact h.2

theorem findMathClose_length : ∀ rest acc inner after : List Char,
    findMathClose acc rest = some (inner, after) → after.length + 2 ≤ rest.length := by
  intro rest
  induction rest with
  | nil => intro acc inner after h; simp [findMathClose] at h
  | cons c rest2 ih =>
    intro acc inner after h
    cases rest2 with
    | nil => simp [findMathClose] at h
    | cons d rest3 =>
      simp only [findMathClose] at h
      by_cases hcd : c = '\\' ∧ d = ')'
      · rw [if_pos hcd] at h
        by_cases hfe : (goTrim acc.reverse).contains '\n' = true
        · rw [if_pos hfe] at h; exact absurd h (by simp)
        · rw [if_neg hfe] at h
          rw [Option.some.injEq, Prod.mk.injEq] at h
          obtain ⟨-, h2⟩ := h
          subst h2
          simp only [List.length_cons]
          omega
      · rw [if_neg hcd] at h
        have := ih (c :: acc) inner after h
        simp only [List.length_cons] at this ⊢
        omega

theorem inlineMathGo_fuel_succ : ∀ (n : Nat) (s : List Char), s.length ≤ n →
    inlineMathGo (n + 1) s = inlineMathGo n s := by
  intro n
  induction n with
  | zero =>
    intro s h
    have : s = [] := List.length_eq_zero.mp (Nat.le_zero.mp h)
    subst this
    rfl
  | succ k ih =>
    intro s h
    cases s with
    | nil => rfl
    | cons c s2 =>
      cases s2 with
      | nil => rfl
      | cons d rest =>
        simp only [List.length_cons] at h
        simp only [inlineMathGo]
        by_cases hcd : c = '\\' ∧ d = '('
        · rw [if_pos hcd, if_pos hcd]
          rcases hm : findMathClose [] rest with _ | ⟨inner, after⟩
          · simp only [hm]
            have hr : rest.length ≤ k := by omega
            rw [ih rest hr]
          · simp only [hm]
            have ha : after.length ≤ k := by
              have := findMathClose_length rest [] inner after hm
              omega
            rw [ih after ha]
        · rw [if_neg hcd, if_neg hcd]
          have hr : (d :: rest).length ≤ k := by
            simp only [List.length_cons]
            omega
          rw [ih (d :: rest) hr]

theorem inlineMathGo_fuel : ∀ (n : Nat) (s : List Char), s.length ≤ n →
    inlineMathGo n s = applyInlineMath s := by
  intro n
  induction n with
  | zero =>
    intro s h
    have : s = [] := List.length_eq_zero.mp (Nat.le_zero.mp h)
    subst this
    rfl
  | succ k ih =>
    intro s h
    by_cases he : s.length = k + 1
    · rw [applyInlineMath, he]
    · have hle : s.length ≤ k := by omega
      rw [inlineMathGo_fuel_succ k s hle, ih s hle]

theorem findMathClose_append : ∀ inner acc post : List Char,
    hasCloseMark inner = false →
    ((goTrim (acc.reverse ++ inner)).contains '\n') = false →
    findMathClose acc (inner ++ '\\' :: ')' :: post) = some (acc.reverse ++ inner, post) := by
  intro inner
  induction inner with
  | nil =>
    intro acc post h1 h2
    rw [List.append_nil] at h2
    rw [List.nil_append, List.append_nil]
    simp only [findMathClose]
    rw [if_pos (⟨trivial, trivial⟩ : True ∧ True)]
    rw [if_neg (by simpa using h2)]
  | cons c inner2 ih =>
    intro acc post h1 h2
    rw [List.cons_append]
    cases hin : inner2 with
    | nil =>
      subst hin
      show findMathClose acc (c :: '\\' :: ')' :: post) = some (acc.reverse ++ [c], post)
      simp only [findMathClose]
      rw [if_neg (by rintro ⟨-, h⟩; exact absurd h (by decide))]
      have harg : ((goTrim ((c :: acc).reverse ++ ([] : List Char))).contains '\n') = false := by
        rw [List.append_nil, List.reverse_cons]
        exact h2
      have hres := ih (c :: acc) post rfl harg
      rw [List.nil_append, List.append_nil, List.reverse_cons] at hres
      exact hres
    | cons d inner3 =>
      subst hin
      show findMathClose acc (c :: d :: (inner3 ++ '\\' :: ')' :: post)) =
        some (acc.reverse ++ c :: d :: inner3, post)
      simp only [findMathClose]
      rw [if_neg (by
        rintro ⟨hc, hd⟩
        subst hc
        subst hd
        simp [hasCloseMark, hasPair] at h1)]
      have htail : hasCloseMark (d :: inner3) = false := hasPair_cons_false h1
      have harg : ((goTrim ((c :: acc).reverse ++ (d :: inner3))).contains '\n') = false := by
        rw [List.reverse_cons, List.append_assoc, List.singleton_append]
        exact h2
      have hres := ih (c :: acc) post htail harg
      rw [List.reverse_cons, List.append_assoc, List.singleton_append] at hres
      rw [List.cons_append] at hres
      exact hres

theorem findMathClose_some_no_lf : ∀ rest acc inner after : List Char,
    findMathClose acc rest = some (inner, after) →
    (goTrim inner).contains '\n' = false := by
  intro rest
  induction rest with
  | nil => intro acc inner after h; simp [findMathClose] at h
  | cons c rest2 ih =>
    intro acc inner after h
    cases rest2 with
    | nil => simp [findMathClose] at h
    | cons d rest3 =>
      simp only [findMathClose] at h
      by_cases hcd : c = '\\' ∧ d = ')'
      · rw [if_pos hcd] at h
        by_cases hfe : (goTrim acc.reverse).contains '\n' = true
        · rw [if_pos hfe] at h; exact absurd h (by simp)
        · rw [if_neg hfe] at h
          rw [Option.some.injEq, Prod.mk.injEq] at h
          obtain ⟨h1, -⟩ := h
          rw [← h1]
          simpa using hfe
      · rw [if_neg hcd] at h
        exact ih (c :: acc) inner after h

theorem findMathClose_append_none : ∀ inner acc post : List Char,
    hasCloseMark inner = false →
    ((goTrim (acc.reverse ++ inner)).contains '\n') = true →
    findMathClose acc (inner ++ '\\' :: ')' :: post) = none := by
  intro inner
  induction inner with
  | nil =>
    intro acc post h1 h2
    rw [List.append_nil] at h2
    rw [List.nil_append]
    simp only [findMathClose]
    rw [if_pos (⟨trivial, trivial⟩ : True ∧ True)]
    rw [if_pos (by simpa using h2)]
  | cons c inner2 ih =>
    intro acc post h1 h2
    rw [List.cons_append]
    cases hin : inner2 with
    | nil =>
      subst hin
      show findMathClose acc (c :: '\\' :: ')' :: post) = none
      simp only [findMathClose]
      rw [if_neg (by rintro ⟨-, h⟩; exact absurd h (by decide))]
      have harg : ((goTrim ((c :: acc).reverse ++ ([] : List Char))).contains '\n') = true := by
        rw [List.append_nil, List.reverse_cons]
        exact h2
      have hres := ih (c :: acc) post rfl harg
      rw [List.nil_append] at hres
      exact hres
    | cons d inner3 =>
      subst hin
      show findMathClose acc (c :: d :: (inner3 ++ '\\' :: ')' :: post)) = none
      simp only [findMathClose]
      rw [if_neg (by
        rintro ⟨hc, hd⟩
        subst hc
        subst hd
        simp [hasCloseMark, hasPair] at h1)]
      have htail : hasCloseMark (d :: inner3) = false := hasPair_cons_false h1
      have harg : ((goTrim ((c :: acc).reverse ++ (d :: inner3))).contains '\n') = true := by
        rw [List.reverse_cons, List.append_assoc, List.singleton_append]
        exact h2
      have hres := ih (c :: acc) post htail harg
      rw [List.cons_append] at hres
      exact hres

theorem hasPair_append {a b : Char} : ∀ xs ys : List Char,
    hasPair a b xs = false → hasPair a b ys = false →
    (xs.getLast? = some a → ys.head? ≠ some b) →
    hasPair a b (xs ++ ys) = false := by
  intro xs
  induction xs with
  | nil => intro ys _ hy _; simpa using hy
  | cons c xs2 ih =>
    intro ys hx hy hj
    rw [List.cons_append]
    simp only [hasPair, Bool.or_eq_false_iff]
    refine ⟨?_, ih ys (hasPair_cons_false hx) hy ?_⟩
    · cases hx2 : xs2 with
      | nil =>
        rw [List.nil_append]
        cases hys : ys with
        | nil => rfl
        | cons d ys2 =>
          by_cases hca : c = a
          · have hd : ys.head? ≠ some b := hj (by simp [hx2, hca])
            rw [hys] at hd
            have hdb : ¬d = b := by simpa using hd
            simp [hdb]
          · simp [hca]
      | cons e xs3 =>
        rw [hx2] at hx
        simp only [hasPair, Bool.or_eq_false_iff] at hx
        simpa using hx.1
    · intro hlast
      cases hx2 : xs2 with
      | nil => rw [hx2] at hlast; exact absurd hlast (by simp)
      | cons e xs3 =>
        apply hj
        rw [hx2] at hlast ⊢
        rw [List.getLast?_cons_cons]
        exact hlast

theorem inlineMathGo_no_open : ∀ (n : Nat) (s : List Char),
    hasOpenMark s = false → inlineMathGo n s = s := by
  intro n
  induction n with
  | zero => intro s _; rfl
  | succ k ih =>
    intro s hs
    cases s with
    | nil => rfl
    | cons c s2 =>
      cases s2 with
      | nil => rfl
      | cons d rest =>
        simp only [inlineMathGo]
        rw [if_neg (by
          rintro ⟨hc, hd⟩
          subst hc hd
          simp [hasOpenMark, hasPair] at hs)]
        rw [ih (d :: rest) (hasPair_cons_false hs)]

/-- C2 counterexample: a single rewritten occurrence of `\( ... \)` can span
a blank-line paragraph break — the whitespace class `\s` in the compiled
pattern matches line feeds, so `\(` + empty line + `x\)` is one match,
rewritten to `$x$`. -/
theorem c2_inline_math_counterexample :
    applyInlineMath ['\\', '(', '\n', '\n', 'x', '\\', ')'] = ['$', 'x', '$'] ∧
    splitLines ['\\', '(', '\n', '\n', 'x', '\\', ')'] =
      [['\\', '('], [], ['x', '\\', ')']] := by
  constructor <;> decide

theorem applyInlineMath_prefix : ∀ pre s : List Char, hasOpenMark pre = false →
    (pre.getLast? = some '\\' → s.head? ≠ some '(') →
    applyInlineMath (pre ++ s) = pre ++ applyInlineMath s := by
  intro pre
  induction pre with
  | nil => intro s _ _; simp
  | cons c pre2 ih =>
    intro s hpre hj
    rcases hT : pre2 ++ s with _ | ⟨d, X⟩
    · obtain ⟨hp2, hs⟩ := List.append_eq_nil.mp hT
      subst hp2
      subst hs
      rfl
    · have hno : ¬(c = '\\' ∧ d = '(') := by
        rintro ⟨hc, hd⟩
        subst hc
        subst hd
        cases pre2 with
        | nil =>
          rw [List.nil_append] at hT
          exact hj (by simp) (by rw [hT]; rfl)
        | cons e pre3 =>
          rw [List.cons_append] at hT
          injection hT with he htl
          subst he
          simp [hasOpenMark, hasPair] at hpre
      have hstep : applyInlineMath (c :: (pre2 ++ s)) =
          c :: applyInlineMath (pre2 ++ s) := by
        rw [hT, applyInlineMath]
        have hlen2 : (c :: d :: X).length = X.length + 1 + 1 := by simp
        rw [hlen2]
        show inlineMathGo (X.length + 1 + 1) (c :: d :: X) = _
        simp only [inlineMathGo]
        rw [if_neg hno]
        rw [inlineMathGo_fuel _ (d :: X) (by simp)]
      rw [List.cons_append, hstep,
        ih s (hasPair_cons_false hpre) ?_, List.cons_append]
      intro hlast
      cases hp2 : pre2 with
      | nil => rw [hp2] at hlast; exact absurd hlast (by simp)
      | cons e pre3 =>
        apply hj
        rw [hp2] at hlast ⊢
        rw [List.getLast?_cons_cons]
        exact hlast

/-- C2 (amended): the inline-math rule rewrites every `\(...\)` occurrence
into `$...$` with the whitespace immediately inside the delimiters trimmed,
matching non-greedily (the nearest following close ends the match); the
*trimmed content* of a match never contains a line feed (third conjunct),
but the trimmed whitespace may — so a match can extend across an empty
line — and a delimited occurrence whose trimmed content would span a line
break is left unrewritten verbatim (second conjunct). -/
theorem c2_inline_math_amended :
    (∀ inner post : List Char, hasCloseMark inner = false →
      ((goTrim inner).contains '\n') = false →
      applyInlineMath (['\\', '('] ++ inner ++ ['\\', ')'] ++ post) =
        ['$'] ++ goTrim inner ++ ['$'] ++ applyInlineMath post) ∧
    (∀ inner post : List Char, hasCloseMark inner = false →
      hasOpenMark inner = false →
      ((goTrim inner).contains '\n') = true →
      applyInlineMath (['\\', '('] ++ inner ++ ['\\', ')'] ++ post) =
        ['\\', '('] ++ inner ++ ['\\', ')'] ++ applyInlineMath post) ∧
    (∀ rest acc inner after : List Char,
      findMathClose acc rest = some (inner, after) →
      (goTrim inner).contains '\n' = false) ∧
    (∀ pre s : List Char, hasOpenMark pre = false →
      (pre.getLast? = some '\\' → s.head? ≠ some '(') →
      applyInlineMath (pre ++ s) = pre ++ applyInlineMath s) ∧
    (∀ s : List Char, hasOpenMark s = false → applyInlineMath s = s) := by
  refine ⟨?_, ?_, findMathClose_some_no_lf, applyInlineMath_prefix,
    fun s hs => inlineMathGo_no_open s.length s hs⟩
  · intro inner post h1 h2
    have hX : ['\\', '('] ++ inner ++ ['\\', ')'] ++ post =
        '\\' :: '(' :: (inner ++ '\\' :: ')' :: post) := by
      simp
    rw [hX]
    have hfc : findMathClose [] (inner ++ '\\' :: ')' :: post) =
        some (inner, post) := by
      have := findMathClose_append inner [] post h1 (by simpa using h2)
      simpa using this
    have hlen : ('\\' :: '(' :: (inner ++ '\\' :: ')' :: post)).length =
        (inner ++ '\\' :: ')' :: post).length + 1 + 1 := by simp
    rw [applyInlineMath, hlen]
    show inlineMathGo ((inner ++ '\\' :: ')' :: post).length + 1 + 1)
        ('\\' :: '(' :: (inner ++ '\\' :: ')' :: post)) = _
    simp only [inlineMathGo]
    rw [if_pos (⟨trivial, trivial⟩ : True ∧ True)]
    simp only [hfc]
    rw [inlineMathGo_fuel _ post (by simp only [List.length_append, List.length_cons]; omega)]
    simp
  · intro inner post h1 h0 h2
    have hX : ['\\', '('] ++ inner ++ ['\\', ')'] ++ post =
        '\\' :: '(' :: (inner ++ '\\' :: ')' :: post) := by
      simp
    rw [hX]
    have hfc : findMathClose [] (inner ++ '\\' :: ')' :: post) = none := by
      have := findMathClose_append_none inner [] post h1 (by simpa using h2)
      simpa using this
    have hlen : ('\\' :: '(' :: (inner ++ '\\' :: ')' :: post)).length =
        (inner ++ '\\' :: ')' :: post).length + 1 + 1 := by simp
    rw [applyInlineMath, hlen]
    show inlineMathGo ((inner ++ '\\' :: ')' :: post).length + 1 + 1)
        ('\\' :: '(' :: (inner ++ '\\' :: ')' :: post)) = _
    simp only [inlineMathGo]
    rw [if_pos (⟨trivial, trivial⟩ : True ∧ True)]
    simp only [hfc]
    rw [inlineMathGo_fuel _ (inner ++ '\\' :: ')' :: post) (by simp)]
    have hpre2 : hasOpenMark (inner ++ ['\\', ')']) = false := by
      show hasPair '\\' '(' (inner ++ ['\\', ')']) = false
      exact hasPair_append inner ['\\', ')'] h0 (by decide) (fun _ => by decide)
    have hassoc : inner ++ '\\' :: ')' :: post = (inner ++ ['\\', ')']) ++ post := by
      simp
    rw [hassoc, applyInlineMath_prefix (inner ++ ['\\', ')']) post hpre2 ?_]
    · simp
    · intro hlast
      rw [show inner ++ ['\\', ')'] = (inner ++ ['\\']) ++ [')'] by simp,
        List.getLast?_concat] at hlast
      exact absurd hlast (by decide)

theorem c2_inline_math_amended_witness :
    applyInlineMath (['a'] ++ (['\\', '('] ++ [' ', 'x', ' '] ++ ['\\', ')'] ++ ['b'])) =
      ['a'] ++ (['$'] ++ goTrim [' ', 'x', ' '] ++ ['$'] ++ ['b']) ∧
    applyInlineMath (['\\', '('] ++ ['a', '\n', 'b'] ++ ['\\', ')'] ++ ['c']) =
      ['\\', '('] ++ ['a', '\n', 'b'] ++ ['\\', ')'] ++ applyInlineMath ['c'] ∧
    (goTrim ['x']).contains '\n' = false := by
  refine ⟨?_, ?_,
    c2_inline_math_amended.2.2.1 ['x', '\\', ')'] [] ['x'] [] (by decide)⟩
  · have h2 := c2_inline_math_amended.2.2.2.1 ['a']
      (['\\', '('] ++ [' ', 'x', ' '] ++ ['\\', ')'] ++ ['b']) (by decide) (by decide)
    have h1 := c2_inline_math_amended.1 [' ', 'x', ' '] ['b'] (by decide) (by decide)
    have h3 := c2_inline_math_amended.2.2.2.2 ['b'] (by decide)
    rw [h2, h1, h3]
  · exact c2_inline_math_amended.2.1 ['a', '\n', 'b'] ['c']
      (by decide) (by decide) (by decide)

/-!  The table rule's insertion discipline (C5). -/

theorem tableInsertTag_map_snd (st : List (Option Nat × List Char)) :
    (tableInsertTag st).map Prod.snd = tableInsert (st.map Prod.snd) := by
  cases st with
  | nil => rfl
  | cons h1 t1 =>
    cases t1 with
    | nil => rfl
    | cons m t =>
      by_cases hm : trimSpace m.2 = []
      · simp [tableInsertTag, tableInsert, hm]
      · simp [tableInsertTag, tableInsert, hm]

theorem tableStepTag_map_snd (st : List (Option Nat × List Char)) (i : Nat)
    (l : List Char) :
    (tableStepTag st i l).map Prod.snd = tableStep (st.map Prod.snd) l := by
  simp only [tableStepTag, tableStep, List.map_cons]
  congr 1
  by_cases hsep : isTableSeparator l = true
  · rw [if_pos hsep, if_pos hsep]
    exact tableInsertTag_map_snd st
  · rw [if_neg hsep, if_neg hsep]

theorem tableRunTag_map_snd : ∀ (rest : List (List Char)) (i : Nat)
    (st : List (Option Nat × List Char)),
    (tableRunTag i st rest).map Prod.snd = tableRun (st.map Prod.snd) rest := by
  intro rest
  induction rest with
  | nil => intro i st; rfl
  | cons l rest ih =>
    intro i st
    show (tableRunTag (i + 1) (tableStepTag st i l) rest).map Prod.snd =
      tableRun (tableStep (st.map Prod.snd) l) rest
    rw [ih, tableStepTag_map_snd]

theorem blanksOK_some_some (ls : List (List Char)) (j1 : Nat) (l1 : List Char)
    (j2 : Nat) (l2 : List Char) (rest : List (Option Nat × List Char)) :
    blanksOK ls ((some j1, l1) :: (some j2, l2) :: rest) =
      blanksOK ls ((some j2, l2) :: rest) := rfl

theorem blanksOK_some_none (ls : List (List Char)) (j : Nat) (l b : List Char)
    (rest : List (Option Nat × List Char)) :
    blanksOK ls ((some j, l) :: (none, b) :: rest) =
      (b.isEmpty && headerCond ls j l && blanksOK ls rest) := rfl

theorem blanksOK_some_nil (ls : List (List Char)) (j : Nat) (l : List Char) :
    blanksOK ls [(some j, l)] = true := rfl

theorem blanksOK_nil (ls : List (List Char)) : blanksOK ls [] = true := rfl

theorem blanksOK_tableRunTag (ls : List (List Char)) :
    ∀ (rest : List (List Char)) (k : Nat) (st : List (Option Nat × List Char)),
      ls.drop k = rest →
      ((k = 0 ∧ st = []) ∨
        (1 ≤ k ∧ ∃ p st2, st = (some (k - 1), p) :: st2 ∧ ls[k - 1]? = some p)) →
      blanksOK ls st = true →
      blanksOK ls (tableRunTag k st rest) = true := by
  intro rest
  induction rest with
  | nil => intro k st _ _ hOK; exact hOK
  | cons l rest ih =>
    intro k st hdrop hinv hOK
    have hget : ls[k]? = some l := by
      have h0 : (ls.drop k)[0]? = some l := by rw [hdrop]; simp
      rwa [List.getElem?_drop, Nat.add_zero] at h0
    have hdrop' : ls.drop (k + 1) = rest := by
      have h1 : ls.drop (k + 1) = (ls.drop k).drop 1 := by
        rw [List.drop_drop, Nat.add_comm]
      rw [h1, hdrop]
      rfl
    have hk1 : k - 1 + 1 = k ∨ k = 0 := by omega
    have hstep : blanksOK ls (tableStepTag st k l) = true := by
      simp only [tableStepTag]
      by_cases hsep : isTableSeparator l = true
      · rw [if_pos hsep]
        rcases hinv with ⟨hk0, hst⟩ | ⟨hk1', p, st2, hst, hp⟩
        · subst hk0
          subst hst
          show blanksOK ls ((some 0, l) :: (none, []) :: []) = true
          rw [blanksOK_some_none]
          simp [headerCond, hsep, hget, blanksOK_nil]
        · have hkk : k - 1 + 1 = k := by omega
          have hcond : headerCond ls (k - 1) p = true := by
            simp only [headerCond, hkk, hget]
            simp [hsep]
          subst hst
          cases st2 with
          | nil =>
            show blanksOK ls
              ((some k, l) :: (some (k - 1), p) :: (none, []) :: []) = true
            rw [blanksOK_some_some, blanksOK_some_none]
            simp [hcond, blanksOK_nil]
          | cons m t =>
            by_cases hm : trimSpace m.2 = []
            · show blanksOK ls ((some k, l) ::
                tableInsertTag ((some (k - 1), p) :: m :: t)) = true
              have : tableInsertTag ((some (k - 1), p) :: m :: t) =
                  (some (k - 1), p) :: m :: t := by
                simp [tableInsertTag, hm]
              rw [this, blanksOK_some_some]
              exact hOK
            · show blanksOK ls ((some k, l) ::
                tableInsertTag ((some (k - 1), p) :: m :: t)) = true
              have : tableInsertTag ((some (k - 1), p) :: m :: t) =
                  (some (k - 1), p) :: (none, []) :: m :: t := by
                simp [tableInsertTag, hm]
              rw [this, blanksOK_some_some, blanksOK_some_none]
              rcases m with ⟨jm | jm, lm⟩
              · -- m is tagged none: hOK forces its payload empty, contradiction
                rw [blanksOK_some_none] at hOK
                simp only [Bool.and_eq_true] at hOK
                have : lm = [] := by simpa using hOK.1.1
                subst this
                exact absurd rfl hm
              · rw [blanksOK_some_some] at hOK
                simp [hcond, hOK]
      · rw [if_neg hsep]
        rcases hinv with ⟨-, hst⟩ | ⟨-, p, st2, hst, -⟩
        · subst hst; rfl
        · subst hst
          rw [blanksOK_some_some]
          exact hOK
    have hinv' : (k + 1 = 0 ∧ tableStepTag st k l = []) ∨
        (1 ≤ k + 1 ∧ ∃ p st2, tableStepTag st k l = (some (k + 1 - 1), p) :: st2 ∧
          ls[k + 1 - 1]? = some p) := by
      right
      refine ⟨by omega, l,
        (if isTableSeparator l then tableInsertTag st else st), ?_, ?_⟩
      · simp [tableStepTag]
      · simpa using hget
    exact ih (k + 1) (tableStepTag st k l) hdrop' hinv' hstep

theorem tableRun_of_tableOKAux : ∀ (rest : List (List Char)) (st : List (List Char)),
    tableOKAux st[1]? st[0]? rest = true → tableRun st rest = rest.reverse ++ st := by
  intro rest
  induction rest with
  | nil => intro st _; simp [tableRun]
  | cons l rest ih =>
    intro st h
    simp only [tableOKAux, Bool.and_eq_true] at h
    obtain ⟨h1, h2⟩ := h
    have hst : tableStep st l = l :: st := by
      unfold tableStep
      by_cases hsep : isTableSeparator l = true
      · rw [if_pos hsep]
        congr 1
        rw [hsep] at h1
        simp only [Bool.not_true, Bool.false_or] at h1
        rcases hm : st[1]? with _ | m
        · rw [hm] at h1; simp at h1
        · rw [hm] at h1
          have h1' : (trimSpace m).isEmpty = true := h1
          cases st with
          | nil => simp at hm
          | cons a st1 =>
            cases st1 with
            | nil => simp at hm
            | cons b t =>
              have hb : b = m := by simpa using hm
              subst hb
              have htr : trimSpace b = [] := by simpa using h1'
              simp [tableInsert, htr]
      · rw [if_neg hsep]
    show tableRun (tableStep st l) rest = (l :: rest).reverse ++ st
    rw [hst]
    have h2' : tableOKAux (l :: st)[1]? (l :: st)[0]? rest = true := by
      simpa using h2
    rw [ih (l :: st) h2']
    simp [List.reverse_cons, List.append_assoc]

theorem applyBlankLineBeforeTable_of_tableOK (content : List Char)
    (h : tableOK (splitLines content) = true) :
    applyBlankLineBeforeTable content = content := by
  unfold applyBlankLineBeforeTable
  have hr := tableRun_of_tableOKAux (splitLines content) [] (by simpa [tableOK] using h)
  rw [hr]
  simp only [List.append_nil, List.reverse_reverse]
  exact joinLines_splitLines content

/-- C5: the table rule's insertions are exactly as claimed.  The tagged run
erases to the real run; every inserted blank sits immediately above a line
whose input successor is a detected separator (or above a separator opening
the document) — so blanks are only ever inserted immediately above a "header
row" in the claim's sense, never after tables.  On a separator: with no
emitted line yet (a table opening the document) one blank is inserted before
the separator itself; with exactly one emitted line one blank is inserted
before that header; with two or more, exactly one blank is inserted before
the header iff the line two back is non-blank, and a blank two back means no
insertion (in particular, an input in which every separator already has a
blank two lines back is returned unchanged).  The step states are the
reversed `outLines` slice, most recent line first. -/
theorem c5_table_blank_line (content : List Char) :
    (tableRunTag 0 [] (splitLines content)).map Prod.snd =
      tableRun [] (splitLines content) ∧
    blanksOK (splitLines content) (tableRunTag 0 [] (splitLines content)) = true ∧
    (∀ l : List Char, isTableSeparator l = true →
      tableStep [] l = [l, []]) ∧
    (∀ l h : List Char, isTableSeparator l = true →
      tableStep [h] l = [l, h, []]) ∧
    (∀ (l h m : List Char) (t : List (List Char)),
      isTableSeparator l = true → trimSpace m ≠ [] →
      tableStep (h :: m :: t) l = l :: h :: [] :: m :: t) ∧
    (∀ (l h m : List Char) (t : List (List Char)),
      isTableSeparator l = true → trimSpace m = [] →
      tableStep (h :: m :: t) l = l :: h :: m :: t) ∧
    (tableOK (splitLines content) = true →
      applyBlankLineBeforeTable content = content) := by
  refine ⟨?_, ?_, ?_, ?_, ?_, ?_, applyBlankLineBeforeTable_of_tableOK content⟩
  · simpa using tableRunTag_map_snd (splitLines content) 0 []
  · exact blanksOK_tableRunTag (splitLines content) (splitLines content) 0 []
      (by simp) (Or.inl ⟨rfl, rfl⟩) rfl
  · intro l hsep
    simp [tableStep, tableInsert, hsep]
  · intro l h hsep
    simp [tableStep, tableInsert, hsep]
  · intro l h m t hsep hm
    simp [tableStep, tableInsert, hsep, hm]
  · intro l h m t hsep hm
    simp [tableStep, tableInsert, hsep, hm]

theorem c5_table_blank_line_witness :
    applyBlankLineBeforeTable ("a\n\n| x |\n| --- |".data) =
      ("a\n\n| x |\n| --- |".data) ∧
    tableStep [] ("| --- |".data) = [("| --- |".data), []] ∧
    tableStep [("| x |".data)] ("| --- |".data) =
      [("| --- |".data), ("| x |".data), []] ∧
    tableStep [("| x |".data), ("a".data)] ("| --- |".data) =
      [("| --- |".data), ("| x |".data), [], ("a".data)] :=
  ⟨(c5_table_blank_line ("a\n\n| x |\n| --- |".data)).2.2.2.2.2.2 (by decide),
   (c5_table_blank_line []).2.2.1 ("| --- |".data) (by decide),
   (c5_table_blank_line []).2.2.2.1 ("| --- |".data) ("| x |".data) (by decide),
   (c5_table_blank_line []).2.2.2.2.1 ("| --- |".data) ("| x |".data) ("a".data) []
     (by decide) (by decide)⟩

/-!  Non-idempotence of the full default pipeline (C1). -/

/-- C1: the full default pipeline is not idempotent, contrary to the claim.
On nested inline-math delimiters `\(a\(b\)c\)`, one pass yields `$a\(b$c\)`
(the non-greedy match stops at the first `\)`), and a second pass rewrites
the leftover `\(b$c\)`, yielding `$a$b$c$` — so applying `Format` with the
six default rules twice differs from applying it once. -/
theorem c1_pipeline_not_idempotent :
    Format (defaultRules defaultQuotePairs) ("\\(a\\(b\\)c\\)".data) =
      .ok ("$a\\(b$c\\)".data) ∧
    Format (defaultRules defaultQuotePairs) ("$a\\(b$c\\)".data) =
      .ok ("$a$b$c$".data) ∧
    ("$a\\(b$c\\)".data) ≠ ("$a$b$c$".data) := by
  refine ⟨?_, ?_, by decide⟩ <;> rfl

end Mdfmt
